import Mathlib

/-!
Verification of the hyprdash-daemon process supervision engine.

The development shallowly embeds the daemon's `ProcessManager`
(src/monitor/ResourceMonitor.ts, second module), the startup-command
resolution of `Daemon.handleServerStart` (src/index.ts), the tokenizer
`ProcessManager.parseCommand`, the stdout/stderr relay handlers, the stats
sampler `ProcessManager.getAllServerStats`, and the file-sandbox resolution
`FileManager.resolvePath`.

Modelling conventions:
* JavaScript runs handlers single-threadedly; each handler body of the
  `ProcessManager` that contains no `await` between its registry reads and
  writes (the kill handler, the `exit`/`error` listeners, the settle timer
  callback, and the synchronous prefix of `stopServer`) is modelled as one
  atomic step on an abstract machine state, matching the
  cooperative-atomicity model of the specification.  `startServer` is not
  such a body: it suspends (`await fs.mkdir`, per-mount awaits) between
  its already-running check and `this.servers.set`, so it is modelled as
  two steps — `startCheck`, the synchronous check, which when it passes
  leaves a pending continuation, and `startFinish`, the resumption that
  spawns and registers.  Other operations, including further starts, may
  interleave between the two; `Action.start` is the derived schedule in
  which nothing does.
* The JS `Map<string, ServerProcess>` is modelled as a function
  `String → Option Nat` from server ids to heap ids, and the heap of
  `ServerProcess` records (which event-listener closures keep referencing
  even after the map entry is deleted) as a function `Nat → Option Entry`.
* Status-change callbacks (`config.onStatusChange`) are modelled as an
  append-only log of `(heap id, server id, status)` triples.
* Machine integers do not occur; all counters are `Nat`.
-/

namespace Hyprdash

/-- Pointwise update of a finite-map-as-function, used for both the
registry (`String` keys) and the heap of supervision entries (`Nat` keys). -/
def upd {α β : Type} [DecidableEq α] (f : α → Option β) (k : α) (v : Option β) : α → Option β :=
  fun x => if x = k then v else f x

theorem upd_self {α β : Type} [DecidableEq α] (f : α → Option β) (k : α) (v : Option β) :
    upd f k v k = v := by
  simp [upd]

theorem upd_ne {α β : Type} [DecidableEq α] (f : α → Option β) (k : α) (v : Option β)
    (x : α) (h : x ≠ k) : upd f k v x = f x := by
  simp [upd, h]

/-- The four lifecycle states of `ServerProcess.status`. -/
inductive Status where
  | STARTING
  | RUNNING
  | STOPPING
  | OFFLINE
deriving DecidableEq

/-- One `ServerProcess` record of `ProcessManager` (the supervision entry).
`alive` records whether the OS process behind `entry.process` has not yet
delivered its `exit` event; `killed` models `ChildProcess.killed`, which
becomes true as soon as a signal has been sent to the process. -/
structure Entry where
  serverId : String
  status : Status
  alive : Bool
  killed : Bool
deriving DecidableEq

/-- The supervision state of one `ProcessManager`: the registry
`this.servers`, the heap of `ServerProcess` records reachable from listener
closures, the log of `onStatusChange` callback invocations, a fresh-id
counter for newly spawned entries, and the continuations of `startServer`
calls that have passed the already-running check but are still suspended
in their internal awaits before registration, keyed by fresh tokens. -/
structure PMState where
  registry : String → Option Nat
  entries : Nat → Option Entry
  log : List (Nat × String × Status)
  nextId : Nat
  pending : Nat → Option String
  nextTok : Nat

/-- The state of a `ProcessManager` with no server ever started. -/
def initState : PMState :=
  { registry := fun _ => none, entries := fun _ => none, log := [], nextId := 0,
    pending := fun _ => none, nextTok := 0 }

/-- The registration part of `ProcessManager.startServer` (lines 194-263
of the supervisor module): emit the `STARTING` callback, create the
`ServerProcess` record, store it in `this.servers` with `Map.set` — an
unconditional overwrite — and install the listeners. -/
def doStart (s : PMState) (sid : String) : PMState :=
  { s with
    registry := upd s.registry sid (some s.nextId)
    entries := upd s.entries s.nextId (some ⟨sid, Status.STARTING, true, false⟩)
    log := s.log ++ [(s.nextId, sid, Status.STARTING)]
    nextId := s.nextId + 1 }

/-- Record a `startServer` call that has passed the already-running check
and is now suspended in its awaits, as a pending continuation for `sid`
under a fresh token. -/
def addPending (s : PMState) (sid : String) : PMState :=
  { s with pending := upd s.pending s.nextTok (some sid), nextTok := s.nextTok + 1 }

/-- The synchronous head of `ProcessManager.startServer` (lines 156-163):
throw `Server is already running` when the registry holds an entry in
`RUNNING` or `STARTING`; otherwise the call proceeds into `await
fs.mkdir` and the per-mount awaits, i.e. becomes a pending continuation.
The inner `none` heap case is unreachable (the JS map stores the records
themselves). -/
def startCheck (s : PMState) (sid : String) : Except String PMState :=
  match s.registry sid with
  | some eid =>
    match s.entries eid with
    | some e =>
      if e.status = Status.RUNNING ∨ e.status = Status.STARTING then
        Except.error "Server is already running"
      else
        Except.ok (addPending s sid)
    | none => Except.ok (addPending s sid)
  | none => Except.ok (addPending s sid)

/-- The resumption of a suspended `startServer` call after its awaits:
the source re-checks nothing — it proceeds straight to `spawn` and
`this.servers.set` — so the pending continuation registers
unconditionally. -/
def startFinish (s : PMState) (tok : Nat) : PMState :=
  match s.pending tok with
  | none => s
  | some sid => { doStart s sid with pending := upd s.pending tok none }

/-- The synchronous prefix of `ProcessManager.stopServer`: on a registered
entry, set status `STOPPING`, emit the `STOPPING` callback (and write the
graceful `stop` line, which the model does not track); on an unknown id,
return immediately. -/
def stopInitF (s : PMState) (sid : String) : PMState :=
  match s.registry sid with
  | none => s
  | some eid =>
    match s.entries eid with
    | none => s
    | some e =>
      { s with
        entries := upd s.entries eid (some { e with status := Status.STOPPING })
        log := s.log ++ [(eid, sid, Status.STOPPING)] }

/-- The 10-second timer callback inside `stopServer`: if the process was
not already signalled (`!process.killed`), send `SIGKILL`. -/
def stopTimeoutF (s : PMState) (eid : Nat) : PMState :=
  match s.entries eid with
  | none => s
  | some e =>
    if e.killed then s
    else { s with entries := upd s.entries eid (some { e with killed := true }) }

/-- `ProcessManager.killServer`: on a registered entry, send `SIGKILL`
(setting `process.killed`), set status `OFFLINE`, emit the `OFFLINE`
callback and delete the registry entry; on an unknown id, return. -/
def killServer (s : PMState) (sid : String) : PMState :=
  match s.registry sid with
  | none => s
  | some eid =>
    match s.entries eid with
    | none => s
    | some e =>
      { s with
        entries := upd s.entries eid (some { e with status := Status.OFFLINE, killed := true })
        registry := upd s.registry sid none
        log := s.log ++ [(eid, sid, Status.OFFLINE)] }

/-- The `childProcess.on('exit', ...)` listener installed by `startServer`:
when the process of entry `eid` delivers its exit event (once, hence the
`alive` precondition), set that record's status to `OFFLINE`, invoke its
`OFFLINE` callback, and call `this.servers.delete(serverId)` — note the
delete is by server id, unconditionally, whatever record is currently
registered under that id. -/
def exitHandler (s : PMState) (eid : Nat) : PMState :=
  match s.entries eid with
  | none => s
  | some e =>
    if e.alive then
      { s with
        entries := upd s.entries eid (some { e with status := Status.OFFLINE, alive := false })
        log := s.log ++ [(eid, e.serverId, Status.OFFLINE)]
        registry := upd s.registry e.serverId none }
    else s

/-- The settle timer (`setTimeout(..., 3000)`) armed by `startServer`:
promote the record to `RUNNING` and emit the callback only if it is still
`STARTING` and no signal has been sent to the process. -/
def settleF (s : PMState) (eid : Nat) : PMState :=
  match s.entries eid with
  | none => s
  | some e =>
    if e.status = Status.STARTING ∧ e.killed = false then
      { s with
        entries := upd s.entries eid (some { e with status := Status.RUNNING })
        log := s.log ++ [(eid, e.serverId, Status.RUNNING)] }
    else s

/-- The events that drive one `ProcessManager`: the control-plane
operations plus the asynchronously completing timers and process events.
`startCheck` and `startFinish` are the two phases of one `startServer`
call — its synchronous already-running check and its registration after
the internal awaits — and `start` is the derived schedule in which no
other task interleaves between them.  `errorEv` is the `on('error')`
listener, whose handler body coincides with the exit listener's
registry/status/callback effects. -/
inductive Action where
  | start (sid : String)
  | startCheck (sid : String)
  | startFinish (tok : Nat)
  | stopInit (sid : String)
  | stopTimeout (eid : Nat)
  | kill (sid : String)
  | exitEv (eid : Nat)
  | errorEv (eid : Nat)
  | settle (eid : Nat)

/-- One atomic step of the supervision machine.  A rejected start
(`already running`) leaves the state unchanged; an uninterleaved
`Action.start` is the check immediately followed by the resumption of the
continuation it just created. -/
def step (s : PMState) : Action → PMState
  | Action.start sid =>
    match startCheck s sid with
    | Except.ok t => startFinish t s.nextTok
    | Except.error _ => s
  | Action.startCheck sid =>
    match startCheck s sid with
    | Except.ok t => t
    | Except.error _ => s
  | Action.startFinish tok => startFinish s tok
  | Action.stopInit sid => stopInitF s sid
  | Action.stopTimeout eid => stopTimeoutF s eid
  | Action.kill sid => killServer s sid
  | Action.exitEv eid => exitHandler s eid
  | Action.errorEv eid => exitHandler s eid
  | Action.settle eid => settleF s eid

/-- Run a sequence of steps from a state. -/
def run (s : PMState) (acts : List Action) : PMState :=
  acts.foldl step s

/-- An uninterleaved `Action.start` is exactly its two phases run back to
back, on any state whose next continuation token is unused. -/
theorem start_eq_phases (s : PMState) (sid : String)
    (hf : s.pending s.nextTok = none) :
    step s (Action.start sid) =
      run s [Action.startCheck sid, Action.startFinish s.nextTok] := by
  cases hreg : s.registry sid with
  | none => simp [run, step, startCheck, hreg]
  | some eid =>
    cases hent : s.entries eid with
    | none => simp [run, step, startCheck, hreg, hent]
    | some e =>
      by_cases hc : e.status = Status.RUNNING ∨ e.status = Status.STARTING
      · simp [run, step, startCheck, hreg, hent, hc, startFinish, hf]
      · simp [run, step, startCheck, hreg, hent, hc]

/-- Number of `OFFLINE` status callbacks the log records for heap id `eid`. -/
def offlineCount (log : List (Nat × String × Status)) (eid : Nat) : Nat :=
  (log.filter (fun t => t.1 = eid ∧ t.2.2 = Status.OFFLINE)).length

/-- Claim C1, behaviour of the code at the failing input: after
`startServer "a"` followed by `killServer "a"`, the entry is gone from the
registry and exactly one `OFFLINE` callback was emitted; but when the OS
exit event for the killed process then fires, the exit listener emits a
second `OFFLINE` callback for the same entry instead of being a no-op. -/
theorem exit_after_kill_double_offline :
    (run initState [Action.start "a", Action.kill "a"]).registry "a" = none ∧
    offlineCount (run initState [Action.start "a", Action.kill "a"]).log 0 = 1 ∧
    offlineCount (step (run initState [Action.start "a", Action.kill "a"]) (Action.exitEv 0)).log 0 = 2 := by
  decide

/-- Claim C4: `startServer` on a server id whose registry entry is in
state `STARTING` or `RUNNING` throws `Server is already running` from its
synchronous check — the first statements of the function, before any
await, spawn or mutation — and the machine step leaves the whole state
unchanged, whether the start is taken uninterleaved or as its check phase
alone: no second process is spawned, no pending continuation is created,
and the existing entry is untouched. -/
theorem start_already_running (s : PMState) (sid : String) (eid : Nat) (e : Entry)
    (hreg : s.registry sid = some eid) (hent : s.entries eid = some e)
    (hst : e.status = Status.STARTING ∨ e.status = Status.RUNNING) :
    startCheck s sid = Except.error "Server is already running" ∧
    step s (Action.start sid) = s ∧
    step s (Action.startCheck sid) = s := by
  have herr : startCheck s sid = Except.error "Server is already running" := by
    rcases hst with h | h <;> simp [startCheck, hreg, hent, h]
  exact ⟨herr, by simp [step, herr], by simp [step, herr]⟩

/-- Witness for `start_already_running` at a concrete state: the state
reached by one successful `startServer "a"` has a `STARTING` entry, and a
second `startServer "a"` is rejected without any state change. -/
theorem start_already_running_witness :
    (run initState [Action.start "a"]).registry "a" = some 0 ∧
    (run initState [Action.start "a"]).entries 0 =
      some ⟨"a", Status.STARTING, true, false⟩ ∧
    startCheck (run initState [Action.start "a"]) "a" =
      Except.error "Server is already running" ∧
    step (run initState [Action.start "a"]) (Action.start "a") =
      run initState [Action.start "a"] ∧
    step (run initState [Action.start "a"]) (Action.startCheck "a") =
      run initState [Action.start "a"] := by
  refine ⟨by decide, by decide, ?_⟩
  have h := start_already_running (run initState [Action.start "a"]) "a" 0
    ⟨"a", Status.STARTING, true, false⟩ (by decide) (by decide) (Or.inl rfl)
  exact ⟨h.1, h.2.1, h.2.2⟩

/-- Claim C10: `stopServer` and `killServer` on a server id with no
registry entry are accepted silently: the step is a complete no-op — no
status callback, no signal, no registry change. -/
theorem stop_kill_unknown_noop (s : PMState) (sid : String)
    (h : s.registry sid = none) :
    step s (Action.stopInit sid) = s ∧ step s (Action.kill sid) = s := by
  constructor
  · simp [step, stopInitF, h]
  · simp [step, killServer, h]

/-- Witness for `stop_kill_unknown_noop`: on the empty registry, stopping
or killing server `"a"` changes nothing. -/
theorem stop_kill_unknown_noop_witness :
    initState.registry "a" = none ∧
    step initState (Action.stopInit "a") = initState ∧
    step initState (Action.kill "a") = initState := by
  exact ⟨rfl, stop_kill_unknown_noop initState "a" rfl⟩

/-- The registry invariant of the specification, §3: an entry is registered
for a server id exactly when a supervised process for that id is still
alive in one of the states `STARTING`, `RUNNING`, `STOPPING` (the JS map
itself gives at-most-one entry per id by construction). -/
def ClaimInv (s : PMState) : Prop :=
  (∀ sid eid, s.registry sid = some eid →
    ∃ e, s.entries eid = some e ∧ e.serverId = sid ∧ e.alive = true ∧
      (e.status = Status.STARTING ∨ e.status = Status.RUNNING ∨ e.status = Status.STOPPING)) ∧
  (∀ eid e, s.entries eid = some e → e.alive = true →
    (e.status = Status.STARTING ∨ e.status = Status.RUNNING ∨ e.status = Status.STOPPING) →
    s.registry e.serverId = some eid)

/-- Strengthened inductive invariant: the two directions of `ClaimInv`
(with `≠ OFFLINE` in place of the status disjunction), uniqueness of the
live entry per server id, and freshness of ids at or above `nextId`. -/
def StrongInv (s : PMState) : Prop :=
  (∀ sid eid, s.registry sid = some eid →
    ∃ e, s.entries eid = some e ∧ e.serverId = sid ∧ e.alive = true ∧
      e.status ≠ Status.OFFLINE) ∧
  (∀ eid e, s.entries eid = some e → e.alive = true → e.status ≠ Status.OFFLINE →
    s.registry e.serverId = some eid) ∧
  (∀ eid1 eid2 e1 e2, s.entries eid1 = some e1 → s.entries eid2 = some e2 →
    e1.alive = true → e2.alive = true → e1.serverId = e2.serverId → eid1 = eid2) ∧
  (∀ eid, s.nextId ≤ eid → s.entries eid = none)

theorem status_ne_offline_iff (st : Status) :
    st ≠ Status.OFFLINE ↔
      (st = Status.STARTING ∨ st = Status.RUNNING ∨ st = Status.STOPPING) := by
  cases st <;> simp

theorem claimInv_of_strongInv (s : PMState) (hs : StrongInv s) : ClaimInv s := by
  obtain ⟨h1, h2, _, _⟩ := hs
  constructor
  · intro sid eid hreg
    obtain ⟨e, he, hsid, hal, hoff⟩ := h1 sid eid hreg
    exact ⟨e, he, hsid, hal, (status_ne_offline_iff e.status).mp hoff⟩
  · intro eid e he hal hst
    exact h2 eid e he hal ((status_ne_offline_iff e.status).mpr hst)

theorem entries_lt_nextId (s : PMState)
    (h4 : ∀ eid, s.nextId ≤ eid → s.entries eid = none)
    {eid : Nat} {e : Entry} (he : s.entries eid = some e) : eid < s.nextId := by
  by_contra h
  push_neg at h
  rw [h4 eid h] at he
  exact absurd he (by simp)

/-- Absence of any still-alive previously spawned process for `sid`
(entry ids are always below `nextId`, so the bounded scan covers the
whole heap). -/
def noLiveEntryB (s : PMState) (sid : String) : Bool :=
  (List.range s.nextId).all (fun eid =>
    match s.entries eid with
    | some e => if e.serverId = sid then !e.alive else true
    | none => true)

/-- Guard for an uninterleaved `start`: it is either rejected as already
running, or issued with no previously spawned process for the id still
alive. -/
def startOkB (s : PMState) (sid : String) : Bool :=
  match s.registry sid with
  | some eid =>
    match s.entries eid with
    | some e => e.status = Status.RUNNING || e.status = Status.STARTING
    | none => false
  | none => noLiveEntryB s sid

/-- Guard under which a single action is benign for the registry
invariant: a start registration — `startFinish`, or the registration half
of an uninterleaved `start` — must only execute when no previously
spawned process for its server id is still alive.  Bare checks, rejected
starts and all other actions are unrestricted. -/
def guardB (s : PMState) : Action → Bool
  | Action.start sid => startOkB s sid
  | Action.startFinish tok =>
    match s.pending tok with
    | some sid => noLiveEntryB s sid
    | none => true
  | _ => true

/-- A run is good when every action satisfies `guardB` in the state where
it fires. -/
def goodRunB (s : PMState) : List Action → Bool
  | [] => true
  | a :: rest => guardB s a && goodRunB (step s a) rest

theorem strongInv_of_components (s t : PMState) (hs : StrongInv s)
    (hr : t.registry = s.registry) (he : t.entries = s.entries)
    (hn : t.nextId = s.nextId) : StrongInv t := by
  obtain ⟨h1, h2, h3, h4⟩ := hs
  refine ⟨?_, ?_, ?_, ?_⟩
  · intro sid eid hreg
    rw [hr] at hreg
    obtain ⟨e, hee, hesid, hal, hoff⟩ := h1 sid eid hreg
    refine ⟨e, ?_, hesid, hal, hoff⟩
    rw [he]
    exact hee
  · intro eid e hee hal hoff
    rw [he] at hee
    rw [hr]
    exact h2 eid e hee hal hoff
  · intro eid1 eid2 e1 e2 he1 he2 ha1 ha2 hsame
    rw [he] at he1 he2
    exact h3 eid1 eid2 e1 e2 he1 he2 ha1 ha2 hsame
  · intro eid hle
    rw [hn] at hle
    rw [he]
    exact h4 eid hle

theorem strongInv_doStart (s : PMState) (sid : String)
    (hs : StrongInv s) (hreg : s.registry sid = none)
    (hnl : ∀ eid e, s.entries eid = some e → e.serverId = sid → e.alive = false) :
    StrongInv (doStart s sid) := by
  obtain ⟨h1, h2, h3, h4⟩ := hs
  refine ⟨?_, ?_, ?_, ?_⟩
  · intro sid' eid' hreg'
    simp only [doStart] at hreg' ⊢
    by_cases hsid : sid' = sid
    · subst hsid
      rw [upd_self] at hreg'
      obtain rfl : s.nextId = eid' := by injection hreg'
      exact ⟨⟨sid', Status.STARTING, true, false⟩, by rw [upd_self], rfl, rfl, by simp⟩
    · rw [upd_ne _ _ _ _ hsid] at hreg'
      obtain ⟨e, he, hesid, hal, hoff⟩ := h1 sid' eid' hreg'
      have hlt : eid' < s.nextId := entries_lt_nextId s h4 he
      refine ⟨e, ?_, hesid, hal, hoff⟩
      rw [upd_ne _ _ _ _ (Nat.ne_of_lt hlt)]
      exact he
  · intro eid' e' he' hal hoff
    simp only [doStart] at he' ⊢
    by_cases heid : eid' = s.nextId
    · subst heid
      rw [upd_self] at he'
      obtain rfl : e' = ⟨sid, Status.STARTING, true, false⟩ := by injection he' with h0; exact h0.symm
      rw [upd_self]
    · rw [upd_ne _ _ _ _ heid] at he'
      have hesid : e'.serverId ≠ sid := by
        intro hcon
        rw [hnl eid' e' he' hcon] at hal
        exact absurd hal (by simp)
      rw [upd_ne _ _ _ _ hesid]
      exact h2 eid' e' he' hal hoff
  · intro eid1 eid2 e1 e2 he1 he2 ha1 ha2 hsame
    simp only [doStart] at he1 he2
    by_cases h1id : eid1 = s.nextId <;> by_cases h2id : eid2 = s.nextId
    · rw [h1id, h2id]
    · subst h1id
      rw [upd_self] at he1
      rw [upd_ne _ _ _ _ h2id] at he2
      obtain rfl : e1 = ⟨sid, Status.STARTING, true, false⟩ := by injection he1 with h0; exact h0.symm
      rw [hnl eid2 e2 he2 (by simpa using hsame.symm)] at ha2
      exact absurd ha2 (by simp)
    · subst h2id
      rw [upd_self] at he2
      rw [upd_ne _ _ _ _ h1id] at he1
      obtain rfl : e2 = ⟨sid, Status.STARTING, true, false⟩ := by injection he2 with h0; exact h0.symm
      rw [hnl eid1 e1 he1 (by simpa using hsame)] at ha1
      exact absurd ha1 (by simp)
    · rw [upd_ne _ _ _ _ h1id] at he1
      rw [upd_ne _ _ _ _ h2id] at he2
      exact h3 eid1 eid2 e1 e2 he1 he2 ha1 ha2 hsame
  · intro eid hle
    simp only [doStart] at hle ⊢
    have hne : eid ≠ s.nextId := by omega
    rw [upd_ne _ _ _ _ hne]
    exact h4 eid (by omega)

theorem strongInv_startCheck (s : PMState) (sid : String)
    (hs : StrongInv s) : StrongInv (step s (Action.startCheck sid)) := by
  cases hreg : s.registry sid with
  | none =>
    have hstep : step s (Action.startCheck sid) = addPending s sid := by
      simp [step, startCheck, hreg]
    rw [hstep]
    exact strongInv_of_components s _ hs rfl rfl rfl
  | some eid =>
    cases hent : s.entries eid with
    | none =>
      have hstep : step s (Action.startCheck sid) = addPending s sid := by
        simp [step, startCheck, hreg, hent]
      rw [hstep]
      exact strongInv_of_components s _ hs rfl rfl rfl
    | some e =>
      by_cases hc : e.status = Status.RUNNING ∨ e.status = Status.STARTING
      · have hstep : step s (Action.startCheck sid) = s := by
          simp [step, startCheck, hreg, hent, hc]
        rw [hstep]
        exact hs
      · have hstep : step s (Action.startCheck sid) = addPending s sid := by
          simp [step, startCheck, hreg, hent, hc]
        rw [hstep]
        exact strongInv_of_components s _ hs rfl rfl rfl

theorem strongInv_startFinish (s : PMState) (tok : Nat)
    (hs : StrongInv s) (hg : guardB s (Action.startFinish tok) = true) :
    StrongInv (step s (Action.startFinish tok)) := by
  simp only [guardB] at hg
  cases hp : s.pending tok with
  | none =>
    have hstep : step s (Action.startFinish tok) = s := by
      simp [step, startFinish, hp]
    rw [hstep]
    exact hs
  | some sid =>
    rw [hp] at hg
    simp only [noLiveEntryB] at hg
    obtain ⟨h1, h2, h3, h4⟩ := hs
    have hnl : ∀ eid e, s.entries eid = some e → e.serverId = sid → e.alive = false := by
      intro eid e he hesid
      have hlt : eid < s.nextId := entries_lt_nextId s h4 he
      have hall := List.all_eq_true.mp hg eid (List.mem_range.mpr hlt)
      simp only [he] at hall
      rw [if_pos hesid] at hall
      simpa using hall
    have hreg : s.registry sid = none := by
      cases hr : s.registry sid with
      | none => rfl
      | some eid =>
        obtain ⟨e, he, hesid, hal, _⟩ := h1 sid eid hr
        rw [hnl eid e he hesid] at hal
        exact absurd hal (by simp)
    have hstep : step s (Action.startFinish tok) =
        { doStart s sid with pending := upd s.pending tok none } := by
      simp [step, startFinish, hp]
    rw [hstep]
    have hd := strongInv_doStart s sid ⟨h1, h2, h3, h4⟩ hreg hnl
    exact strongInv_of_components (doStart s sid) _ hd rfl rfl rfl

theorem strongInv_start (s : PMState) (sid : String)
    (hs : StrongInv s) (hok : startOkB s sid = true) :
    StrongInv (step s (Action.start sid)) := by
  cases hreg : s.registry sid with
  | some eid =>
    obtain ⟨e, he, hesid, hal, hoff⟩ := hs.1 sid eid hreg
    simp only [startOkB, hreg, he] at hok
    have hst : e.status = Status.RUNNING ∨ e.status = Status.STARTING := by
      simpa using hok
    have herr : startCheck s sid = Except.error "Server is already running" := by
      rcases hst with h | h <;> simp [startCheck, hreg, he, h]
    have hstep : step s (Action.start sid) = s := by
      simp [step, herr]
    rw [hstep]
    exact hs
  | none =>
    simp only [startOkB, hreg] at hok
    have h5 : StrongInv (addPending s sid) :=
      strongInv_of_components s _ hs rfl rfl rfl
    have hg : guardB (addPending s sid) (Action.startFinish s.nextTok) = true := by
      simp only [guardB]
      have hp : (addPending s sid).pending s.nextTok = some sid := by
        simp [addPending, upd_self]
      rw [hp]
      exact hok
    have h6 := strongInv_startFinish (addPending s sid) s.nextTok h5 hg
    have hstep : step s (Action.start sid) =
        step (addPending s sid) (Action.startFinish s.nextTok) := by
      simp [step, startCheck, hreg]
    rw [hstep]
    exact h6

theorem strongInv_stopInit (s : PMState) (sid : String)
    (hs : StrongInv s) : StrongInv (step s (Action.stopInit sid)) := by
  obtain ⟨h1, h2, h3, h4⟩ := hs
  cases hreg : s.registry sid with
  | none => simpa [step, stopInitF, hreg] using And.intro h1 (And.intro h2 (And.intro h3 h4))
  | some eid =>
    cases hent : s.entries eid with
    | none => simpa [step, stopInitF, hreg, hent] using And.intro h1 (And.intro h2 (And.intro h3 h4))
    | some e =>
      obtain ⟨e0, he0, hesid, hal, _⟩ := h1 sid eid hreg
      have hee0 : e = e0 := by rw [hent] at he0; injection he0
      subst hee0
      have hR : (step s (Action.stopInit sid)).registry = s.registry := by
        simp [step, stopInitF, hreg, hent]
      have hE : (step s (Action.stopInit sid)).entries =
          upd s.entries eid (some { e with status := Status.STOPPING }) := by
        simp [step, stopInitF, hreg, hent]
      have hN : (step s (Action.stopInit sid)).nextId = s.nextId := by
        simp [step, stopInitF, hreg, hent]
      refine ⟨?_, ?_, ?_, ?_⟩
      · intro sid' eid' hreg'
        rw [hR] at hreg'
        rw [hE]
        by_cases heid : eid' = eid
        · subst heid
          have hsid' : sid' = sid := by
            obtain ⟨e1, he1, h1sid, _, _⟩ := h1 sid' eid' hreg'
            rw [hent] at he1
            have hee1 : e = e1 := by injection he1
            rw [← h1sid, ← hee1]
            exact hesid
          subst hsid'
          exact ⟨{ e with status := Status.STOPPING }, upd_self _ _ _, hesid, hal, by simp⟩
        · obtain ⟨e1, he1, h1sid, h1al, h1off⟩ := h1 sid' eid' hreg'
          exact ⟨e1, by rw [upd_ne _ _ _ _ heid]; exact he1, h1sid, h1al, h1off⟩
      · intro eid' e' he' hal' hoff'
        rw [hE] at he'
        rw [hR]
        by_cases heid : eid' = eid
        · subst heid
          rw [upd_self] at he'
          have he'e : e' = { e with status := Status.STOPPING } := by
            injection he' with h0
            exact h0.symm
          subst he'e
          simpa [hesid] using hreg
        · rw [upd_ne _ _ _ _ heid] at he'
          exact h2 eid' e' he' hal' hoff'
      · intro eid1 eid2 e1 e2 he1 he2 ha1 ha2 hsame
        rw [hE] at he1 he2
        by_cases h1id : eid1 = eid <;> by_cases h2id : eid2 = eid
        · rw [h1id, h2id]
        · rw [h1id] at he1 ⊢
          rw [upd_self] at he1
          rw [upd_ne _ _ _ _ h2id] at he2
          have h1e : e1 = { e with status := Status.STOPPING } := by
            injection he1 with h0
            exact h0.symm
          subst h1e
          exact h3 eid eid2 e e2 hent he2 (by simpa using ha1) ha2 (by simpa using hsame)
        · rw [h2id] at he2 ⊢
          rw [upd_self] at he2
          rw [upd_ne _ _ _ _ h1id] at he1
          have h2e : e2 = { e with status := Status.STOPPING } := by
            injection he2 with h0
            exact h0.symm
          subst h2e
          exact h3 eid1 eid e1 e he1 hent ha1 (by simpa using ha2) (by simpa using hsame)
        · rw [upd_ne _ _ _ _ h1id] at he1
          rw [upd_ne _ _ _ _ h2id] at he2
          exact h3 eid1 eid2 e1 e2 he1 he2 ha1 ha2 hsame
      · intro eid' hle
        rw [hN] at hle
        rw [hE]
        have hlt : eid < s.nextId := entries_lt_nextId s h4 hent
        have hne : eid' ≠ eid := by omega
        rw [upd_ne _ _ _ _ hne]
        exact h4 eid' hle

theorem strongInv_stopTimeout (s : PMState) (eid : Nat)
    (hs : StrongInv s) : StrongInv (step s (Action.stopTimeout eid)) := by
  obtain ⟨h1, h2, h3, h4⟩ := hs
  cases hent : s.entries eid with
  | none => simpa [step, stopTimeoutF, hent] using And.intro h1 (And.intro h2 (And.intro h3 h4))
  | some e =>
    by_cases hk : e.killed
    · simpa [step, stopTimeoutF, hent, hk] using And.intro h1 (And.intro h2 (And.intro h3 h4))
    · have hR : (step s (Action.stopTimeout eid)).registry = s.registry := by
        simp [step, stopTimeoutF, hent, hk]
      have hE : (step s (Action.stopTimeout eid)).entries =
          upd s.entries eid (some { e with killed := true }) := by
        simp [step, stopTimeoutF, hent, hk]
      have hN : (step s (Action.stopTimeout eid)).nextId = s.nextId := by
        simp [step, stopTimeoutF, hent, hk]
      refine ⟨?_, ?_, ?_, ?_⟩
      · intro sid' eid' hreg'
        rw [hR] at hreg'
        rw [hE]
        obtain ⟨e1, he1, h1sid, h1al, h1off⟩ := h1 sid' eid' hreg'
        by_cases heid : eid' = eid
        · subst heid
          rw [hent] at he1
          have hee1 : e = e1 := by injection he1
          subst hee1
          exact ⟨{ e with killed := true }, upd_self _ _ _, h1sid, h1al, h1off⟩
        · exact ⟨e1, by rw [upd_ne _ _ _ _ heid]; exact he1, h1sid, h1al, h1off⟩
      · intro eid' e' he' hal' hoff'
        rw [hE] at he'
        rw [hR]
        by_cases heid : eid' = eid
        · rw [heid] at he' ⊢
          rw [upd_self] at he'
          have he'e : e' = { e with killed := true } := by
            injection he' with h0
            exact h0.symm
          rw [he'e] at hal' hoff' ⊢
          exact h2 eid e hent (by simpa using hal') (by simpa using hoff')
        · rw [upd_ne _ _ _ _ heid] at he'
          exact h2 eid' e' he' hal' hoff'
      · intro eid1 eid2 e1 e2 he1 he2 ha1 ha2 hsame
        rw [hE] at he1 he2
        by_cases h1id : eid1 = eid <;> by_cases h2id : eid2 = eid
        · rw [h1id, h2id]
        · rw [h1id] at he1 ⊢
          rw [upd_self] at he1
          rw [upd_ne _ _ _ _ h2id] at he2
          have h1e : e1 = { e with killed := true } := by
            injection he1 with h0
            exact h0.symm
          subst h1e
          exact h3 eid eid2 e e2 hent he2 (by simpa using ha1) ha2 (by simpa using hsame)
        · rw [h2id] at he2 ⊢
          rw [upd_self] at he2
          rw [upd_ne _ _ _ _ h1id] at he1
          have h2e : e2 = { e with killed := true } := by
            injection he2 with h0
            exact h0.symm
          subst h2e
          exact h3 eid1 eid e1 e he1 hent ha1 (by simpa using ha2) (by simpa using hsame)
        · rw [upd_ne _ _ _ _ h1id] at he1
          rw [upd_ne _ _ _ _ h2id] at he2
          exact h3 eid1 eid2 e1 e2 he1 he2 ha1 ha2 hsame
      · intro eid' hle
        rw [hN] at hle
        rw [hE]
        have hlt : eid < s.nextId := entries_lt_nextId s h4 hent
        have hne : eid' ≠ eid := by omega
        rw [upd_ne _ _ _ _ hne]
        exact h4 eid' hle

theorem strongInv_kill (s : PMState) (sid : String)
    (hs : StrongInv s) : StrongInv (step s (Action.kill sid)) := by
  obtain ⟨h1, h2, h3, h4⟩ := hs
  cases hreg : s.registry sid with
  | none => simpa [step, killServer, hreg] using And.intro h1 (And.intro h2 (And.intro h3 h4))
  | some eid =>
    cases hent : s.entries eid with
    | none => simpa [step, killServer, hreg, hent] using And.intro h1 (And.intro h2 (And.intro h3 h4))
    | some e =>
      obtain ⟨e0, he0, hesid, hal, _⟩ := h1 sid eid hreg
      have hee0 : e = e0 := by rw [hent] at he0; injection he0
      subst hee0
      have hR : (step s (Action.kill sid)).registry = upd s.registry sid none := by
        simp [step, killServer, hreg, hent]
      have hE : (step s (Action.kill sid)).entries =
          upd s.entries eid (some { e with status := Status.OFFLINE, killed := true }) := by
        simp [step, killServer, hreg, hent]
      have hN : (step s (Action.kill sid)).nextId = s.nextId := by
        simp [step, killServer, hreg, hent]
      refine ⟨?_, ?_, ?_, ?_⟩
      · intro sid' eid' hreg'
        rw [hR] at hreg'
        rw [hE]
        by_cases hsid : sid' = sid
        · subst hsid
          rw [upd_self] at hreg'
          exact absurd hreg' (by simp)
        · rw [upd_ne _ _ _ _ hsid] at hreg'
          obtain ⟨e1, he1, h1sid, h1al, h1off⟩ := h1 sid' eid' hreg'
          have heid : eid' ≠ eid := by
            intro hcon
            subst hcon
            rw [hent] at he1
            have hee1 : e = e1 := by injection he1
            refine hsid ?_
            rw [← h1sid, ← hee1]
            exact hesid
          exact ⟨e1, by rw [upd_ne _ _ _ _ heid]; exact he1, h1sid, h1al, h1off⟩
      · intro eid' e' he' hal' hoff'
        rw [hE] at he'
        rw [hR]
        by_cases heid : eid' = eid
        · subst heid
          rw [upd_self] at he'
          have he'e : e' = { e with status := Status.OFFLINE, killed := true } := by
            injection he' with h0
            exact h0.symm
          rw [he'e] at hoff'
          exact absurd rfl hoff'
        · rw [upd_ne _ _ _ _ heid] at he'
          have hr := h2 eid' e' he' hal' hoff'
          have hesid' : e'.serverId ≠ sid := by
            intro hcon
            rw [hcon, hreg] at hr
            have hinj : eid = eid' := by injection hr
            exact heid hinj.symm
          rw [upd_ne _ _ _ _ hesid']
          exact hr
      · intro eid1 eid2 e1 e2 he1 he2 ha1 ha2 hsame
        rw [hE] at he1 he2
        by_cases h1id : eid1 = eid <;> by_cases h2id : eid2 = eid
        · rw [h1id, h2id]
        · rw [h1id] at he1 ⊢
          rw [upd_self] at he1
          rw [upd_ne _ _ _ _ h2id] at he2
          have h1e : e1 = { e with status := Status.OFFLINE, killed := true } := by
            injection he1 with h0
            exact h0.symm
          subst h1e
          exact h3 eid eid2 e e2 hent he2 (by simpa using ha1) ha2 (by simpa using hsame)
        · rw [h2id] at he2 ⊢
          rw [upd_self] at he2
          rw [upd_ne _ _ _ _ h1id] at he1
          have h2e : e2 = { e with status := Status.OFFLINE, killed := true } := by
            injection he2 with h0
            exact h0.symm
          subst h2e
          exact h3 eid1 eid e1 e he1 hent ha1 (by simpa using ha2) (by simpa using hsame)
        · rw [upd_ne _ _ _ _ h1id] at he1
          rw [upd_ne _ _ _ _ h2id] at he2
          exact h3 eid1 eid2 e1 e2 he1 he2 ha1 ha2 hsame
      · intro eid' hle
        rw [hN] at hle
        rw [hE]
        have hlt : eid < s.nextId := entries_lt_nextId s h4 hent
        have hne : eid' ≠ eid := by omega
        rw [upd_ne _ _ _ _ hne]
        exact h4 eid' hle

theorem strongInv_exit (s : PMState) (eid : Nat)
    (hs : StrongInv s) : StrongInv (exitHandler s eid) := by
  obtain ⟨h1, h2, h3, h4⟩ := hs
  cases hent : s.entries eid with
  | none => simpa [exitHandler, hent] using And.intro h1 (And.intro h2 (And.intro h3 h4))
  | some e =>
    by_cases hal : e.alive = true
    · have hR : (exitHandler s eid).registry = upd s.registry e.serverId none := by
        simp [exitHandler, hent, hal]
      have hE : (exitHandler s eid).entries =
          upd s.entries eid (some { e with status := Status.OFFLINE, alive := false }) := by
        simp [exitHandler, hent, hal]
      have hN : (exitHandler s eid).nextId = s.nextId := by
        simp [exitHandler, hent, hal]
      refine ⟨?_, ?_, ?_, ?_⟩
      · intro sid' eid' hreg'
        rw [hR] at hreg'
        rw [hE]
        by_cases hsid : sid' = e.serverId
        · subst hsid
          rw [upd_self] at hreg'
          exact absurd hreg' (by simp)
        · rw [upd_ne _ _ _ _ hsid] at hreg'
          obtain ⟨e1, he1, h1sid, h1al, h1off⟩ := h1 sid' eid' hreg'
          have heid : eid' ≠ eid := by
            intro hcon
            subst hcon
            rw [hent] at he1
            have hee1 : e = e1 := by injection he1
            refine hsid ?_
            rw [← h1sid, hee1]
          exact ⟨e1, by rw [upd_ne _ _ _ _ heid]; exact he1, h1sid, h1al, h1off⟩
      · intro eid' e' he' hal' hoff'
        rw [hE] at he'
        rw [hR]
        by_cases heid : eid' = eid
        · subst heid
          rw [upd_self] at he'
          have he'e : e' = { e with status := Status.OFFLINE, alive := false } := by
            injection he' with h0
            exact h0.symm
          rw [he'e] at hal'
          exact absurd hal' (by simp)
        · rw [upd_ne _ _ _ _ heid] at he'
          have hr := h2 eid' e' he' hal' hoff'
          have hesid' : e'.serverId ≠ e.serverId := by
            intro hcon
            exact heid (h3 eid' eid e' e he' hent hal' hal hcon)
          rw [upd_ne _ _ _ _ hesid']
          exact hr
      · intro eid1 eid2 e1 e2 he1 he2 ha1 ha2 hsame
        rw [hE] at he1 he2
        by_cases h1id : eid1 = eid <;> by_cases h2id : eid2 = eid
        · rw [h1id, h2id]
        · rw [h1id] at he1 ⊢
          rw [upd_self] at he1
          have h1e : e1 = { e with status := Status.OFFLINE, alive := false } := by
            injection he1 with h0
            exact h0.symm
          rw [h1e] at ha1
          exact absurd ha1 (by simp)
        · rw [h2id] at he2 ⊢
          rw [upd_self] at he2
          have h2e : e2 = { e with status := Status.OFFLINE, alive := false } := by
            injection he2 with h0
            exact h0.symm
          rw [h2e] at ha2
          exact absurd ha2 (by simp)
        · rw [upd_ne _ _ _ _ h1id] at he1
          rw [upd_ne _ _ _ _ h2id] at he2
          exact h3 eid1 eid2 e1 e2 he1 he2 ha1 ha2 hsame
      · intro eid' hle
        rw [hN] at hle
        rw [hE]
        have hlt : eid < s.nextId := entries_lt_nextId s h4 hent
        have hne : eid' ≠ eid := by omega
        rw [upd_ne _ _ _ _ hne]
        exact h4 eid' hle
    · have hal' : e.alive = false := by simpa using hal
      simpa [exitHandler, hent, hal'] using And.intro h1 (And.intro h2 (And.intro h3 h4))

theorem strongInv_settle (s : PMState) (eid : Nat)
    (hs : StrongInv s) : StrongInv (step s (Action.settle eid)) := by
  obtain ⟨h1, h2, h3, h4⟩ := hs
  cases hent : s.entries eid with
  | none => simpa [step, settleF, hent] using And.intro h1 (And.intro h2 (And.intro h3 h4))
  | some e =>
    by_cases hc : e.status = Status.STARTING ∧ e.killed = false
    · have hR : (step s (Action.settle eid)).registry = s.registry := by
        simp [step, settleF, hent, hc]
      have hE : (step s (Action.settle eid)).entries =
          upd s.entries eid (some { e with status := Status.RUNNING }) := by
        simp [step, settleF, hent, hc]
      have hN : (step s (Action.settle eid)).nextId = s.nextId := by
        simp [step, settleF, hent, hc]
      refine ⟨?_, ?_, ?_, ?_⟩
      · intro sid' eid' hreg'
        rw [hR] at hreg'
        rw [hE]
        obtain ⟨e1, he1, h1sid, h1al, h1off⟩ := h1 sid' eid' hreg'
        by_cases heid : eid' = eid
        · subst heid
          rw [hent] at he1
          have hee1 : e = e1 := by injection he1
          subst hee1
          exact ⟨{ e with status := Status.RUNNING }, upd_self _ _ _, h1sid, h1al, by simp⟩
        · exact ⟨e1, by rw [upd_ne _ _ _ _ heid]; exact he1, h1sid, h1al, h1off⟩
      · intro eid' e' he' hal' hoff'
        rw [hE] at he'
        rw [hR]
        by_cases heid : eid' = eid
        · rw [heid] at he' ⊢
          rw [upd_self] at he'
          have he'e : e' = { e with status := Status.RUNNING } := by
            injection he' with h0
            exact h0.symm
          rw [he'e] at hal' ⊢
          refine h2 eid e hent (by simpa using hal') ?_
          rw [hc.1]
          simp
        · rw [upd_ne _ _ _ _ heid] at he'
          exact h2 eid' e' he' hal' hoff'
      · intro eid1 eid2 e1 e2 he1 he2 ha1 ha2 hsame
        rw [hE] at he1 he2
        by_cases h1id : eid1 = eid <;> by_cases h2id : eid2 = eid
        · rw [h1id, h2id]
        · rw [h1id] at he1 ⊢
          rw [upd_self] at he1
          rw [upd_ne _ _ _ _ h2id] at he2
          have h1e : e1 = { e with status := Status.RUNNING } := by
            injection he1 with h0
            exact h0.symm
          subst h1e
          exact h3 eid eid2 e e2 hent he2 (by simpa using ha1) ha2 (by simpa using hsame)
        · rw [h2id] at he2 ⊢
          rw [upd_self] at he2
          rw [upd_ne _ _ _ _ h1id] at he1
          have h2e : e2 = { e with status := Status.RUNNING } := by
            injection he2 with h0
            exact h0.symm
          subst h2e
          exact h3 eid1 eid e1 e he1 hent ha1 (by simpa using ha2) (by simpa using hsame)
        · rw [upd_ne _ _ _ _ h1id] at he1
          rw [upd_ne _ _ _ _ h2id] at he2
          exact h3 eid1 eid2 e1 e2 he1 he2 ha1 ha2 hsame
      · intro eid' hle
        rw [hN] at hle
        rw [hE]
        have hlt : eid < s.nextId := entries_lt_nextId s h4 hent
        have hne : eid' ≠ eid := by omega
        rw [upd_ne _ _ _ _ hne]
        exact h4 eid' hle
    · simpa [step, settleF, hent, hc] using And.intro h1 (And.intro h2 (And.intro h3 h4))


theorem strongInv_step (s : PMState) (a : Action)
    (hs : StrongInv s) (hg : guardB s a = true) : StrongInv (step s a) := by
  cases a with
  | start sid => exact strongInv_start s sid hs (by simpa [guardB] using hg)
  | startCheck sid => exact strongInv_startCheck s sid hs
  | startFinish tok => exact strongInv_startFinish s tok hs hg
  | stopInit sid => exact strongInv_stopInit s sid hs
  | stopTimeout eid => exact strongInv_stopTimeout s eid hs
  | kill sid => exact strongInv_kill s sid hs
  | exitEv eid => exact strongInv_exit s eid hs
  | errorEv eid => exact strongInv_exit s eid hs
  | settle eid => exact strongInv_settle s eid hs

theorem strongInv_run (acts : List Action) : ∀ s : PMState,
    StrongInv s → goodRunB s acts = true → StrongInv (run s acts) := by
  induction acts with
  | nil => intro s hs _; exact hs
  | cons a rest ih =>
    intro s hs hg
    rw [goodRunB, Bool.and_eq_true] at hg
    exact ih (step s a) (strongInv_step s a hs hg.1) hg.2

theorem strongInv_init : StrongInv initState := by
  refine ⟨?_, ?_, ?_, ?_⟩
  · intro sid eid hreg
    exact absurd hreg (by simp [initState])
  · intro eid e he _ _
    exact absurd he (by simp [initState])
  · intro eid1 eid2 e1 e2 he1 _ _ _ _
    exact absurd he1 (by simp [initState])
  · intro eid _
    rfl

/-- Claim C3, amended: the registry invariant — an entry is registered for
a server id exactly when a still-alive supervised process for that id is
in `STARTING`, `RUNNING` or `STOPPING`, with at most one live process per
id — is preserved by every interleaving of the two-phase start (its
synchronous already-running check and, separately, its registration after
the internal awaits), stop, kill, process exit/error, the stop timeout
and the settle timer, provided each start registration executes only when
no previously spawned process for that server id is still alive (bare
checks and rejected starts are unrestricted).  A registration that
executes while an entry is `STOPPING`, while a killed process has not yet
delivered its exit event, or after a concurrent start for the same id has
already registered, breaks the invariant: see the counterexample. -/
theorem registry_invariant_good_runs (acts : List Action)
    (h : goodRunB initState acts = true) : ClaimInv (run initState acts) :=
  claimInv_of_strongInv _ (strongInv_run acts initState strongInv_init h)

/-- Witness for `registry_invariant_good_runs` on a concrete interleaving
exercising the split start phases, settle, stop, exit, an interleaved
restart and kill. -/
theorem registry_invariant_good_runs_witness :
    goodRunB initState
      [Action.startCheck "a", Action.startFinish 0, Action.settle 0,
       Action.stopInit "a", Action.startCheck "a", Action.exitEv 0,
       Action.startFinish 1, Action.kill "a", Action.exitEv 1] = true ∧
    ClaimInv (run initState
      [Action.startCheck "a", Action.startFinish 0, Action.settle 0,
       Action.stopInit "a", Action.startCheck "a", Action.exitEv 0,
       Action.startFinish 1, Action.kill "a", Action.exitEv 1]) :=
  ⟨by decide, registry_invariant_good_runs _ (by decide)⟩

/-- Counterexample to claim C3 as stated, in two interleavings.  First, a
start issued while the existing entry is `STOPPING` passes the check and
overwrites the entry; when the old process's exit event then fires, its
listener deletes the new entry from the registry, leaving a live
`STARTING` process with no registry entry.  Second, two concurrent starts
for the same id both pass the already-running check before either
registers (each suspends in `await fs.mkdir` after its check); the second
registration then overwrites the first, leaving the first live process
untracked while the registry points at the second. -/
theorem registry_invariant_counterexample :
    ((run initState
        [Action.start "a", Action.stopInit "a", Action.start "a", Action.exitEv 0]).entries 1 =
          some ⟨"a", Status.STARTING, true, false⟩ ∧
      (run initState
        [Action.start "a", Action.stopInit "a", Action.start "a", Action.exitEv 0]).registry "a" =
          none ∧
      ¬ ClaimInv (run initState
        [Action.start "a", Action.stopInit "a", Action.start "a", Action.exitEv 0])) ∧
    ((run initState
        [Action.startCheck "a", Action.startCheck "a",
         Action.startFinish 0, Action.startFinish 1]).entries 0 =
          some ⟨"a", Status.STARTING, true, false⟩ ∧
      (run initState
        [Action.startCheck "a", Action.startCheck "a",
         Action.startFinish 0, Action.startFinish 1]).registry "a" = some 1 ∧
      ¬ ClaimInv (run initState
        [Action.startCheck "a", Action.startCheck "a",
         Action.startFinish 0, Action.startFinish 1])) := by
  refine ⟨⟨by decide, by decide, ?_⟩, ⟨by decide, by decide, ?_⟩⟩
  · intro h
    have := h.2 1 ⟨"a", Status.STARTING, true, false⟩ (by decide) rfl (Or.inl rfl)
    exact absurd this (by decide)
  · intro h
    have := h.2 0 ⟨"a", Status.STARTING, true, false⟩ (by decide) rfl (Or.inl rfl)
    exact absurd this (by decide)

/-- The fixed graceful-stop timeout of `stopServer`, in milliseconds. -/
def STOP_TIMEOUT_MS : Nat := 10000

/-- When the promise awaited by `stopServer` resolves, as a function of
the time (milliseconds after stop initiation) at which the process's exit
event fires (`none` when it never fires): the exit listener resolves at
the exit time, the timer callback resolves at the timeout, whichever
fires first. -/
def stopResolveTime (exitTime : Option Nat) : Nat :=
  match exitTime with
  | some t => if t < STOP_TIMEOUT_MS then t else STOP_TIMEOUT_MS
  | none => STOP_TIMEOUT_MS

/-- Whether the race inside `stopServer` sends `SIGKILL`: only the timer
path does, and only when `process.killed` is still false at that moment. -/
def stopSigkill (exitTime : Option Nat) (killedFlag : Bool) : Bool :=
  match exitTime with
  | some t => if t < STOP_TIMEOUT_MS then false else !killedFlag
  | none => !killedFlag

/-- Counterexample to claim C2 as stated: a process that exits 10001 ms
after the stop was initiated makes `stopServer` resolve at the 10000 ms
timeout, after sending `SIGKILL` but strictly before the process has
exited — the promise does not wait for the exit on the forced path. -/
theorem stop_resolves_before_exit :
    stopResolveTime (some 10001) = STOP_TIMEOUT_MS ∧
    stopSigkill (some 10001) false = true ∧
    stopResolveTime (some 10001) < 10001 := by
  decide

/-- Claim C2, amended: when the process exits within the 10-second stop
timeout, `stopServer` resolves exactly at the exit and sends no `SIGKILL`;
when it does not, `SIGKILL` is sent at the timeout (unless a signal was
already sent) and `stopServer` resolves immediately at the timeout,
without waiting for the process to exit. -/
theorem stop_wait_behaviour (t : Nat) (k : Bool) :
    (t < STOP_TIMEOUT_MS →
      stopResolveTime (some t) = t ∧ stopSigkill (some t) k = false) ∧
    (STOP_TIMEOUT_MS ≤ t →
      stopResolveTime (some t) = STOP_TIMEOUT_MS ∧
      stopSigkill (some t) false = true ∧ stopResolveTime (some t) ≤ t) ∧
    stopResolveTime none = STOP_TIMEOUT_MS ∧ stopSigkill none false = true := by
  refine ⟨?_, ?_, rfl, rfl⟩
  · intro ht
    simp [stopResolveTime, stopSigkill, ht]
  · intro ht
    have ht' : ¬ t < STOP_TIMEOUT_MS := by omega
    simp [stopResolveTime, stopSigkill, ht']
    omega

/-- Witness for `stop_wait_behaviour` at exit times 3 and 20000. -/
theorem stop_wait_behaviour_witness :
    (3 < STOP_TIMEOUT_MS ∧ stopResolveTime (some 3) = 3 ∧
      stopSigkill (some 3) false = false) ∧
    (STOP_TIMEOUT_MS ≤ 20000 ∧ stopResolveTime (some 20000) = STOP_TIMEOUT_MS ∧
      stopSigkill (some 20000) false = true) :=
  ⟨⟨by decide, (stop_wait_behaviour 3 false).1 (by decide)⟩,
   ⟨by decide, ((stop_wait_behaviour 20000 false).2.1 (by decide)).1,
    ((stop_wait_behaviour 20000 false).2.1 (by decide)).2.1⟩⟩

/-- Left brace character, written numerically. -/
def lbrace : Char := Char.ofNat 123

/-- Right brace character, written numerically. -/
def rbrace : Char := Char.ofNat 125

/-- The placeholder pattern for one variable name, doubled braces
around the name, as matched by the regexes of `handleServerStart`. -/
def placeholder (name : List Char) : List Char :=
  lbrace :: lbrace :: name ++ [rbrace, rbrace]

/-- Fuelled global replacement: scan left to right, replace each
non-overlapping occurrence of `pat`, exactly the behaviour of
`String.prototype.replace` with a global regex whose pattern is the
literal `pat` (replacement strings are taken literally; none of the
daemon's replacement values contain dollar escapes). -/
def replaceAllFuel : Nat → List Char → List Char → List Char → List Char
  | 0, s, _, _ => s
  | _ + 1, [], _, _ => []
  | fuel + 1, c :: rest, pat, rep =>
    if !pat.isEmpty && pat.isPrefixOf (c :: rest) then
      rep ++ replaceAllFuel fuel ((c :: rest).drop pat.length) pat rep
    else
      c :: replaceAllFuel fuel rest pat rep

/-- Global replacement of `pat` by `rep` in `s`. -/
def replaceAll (s pat rep : List Char) : List Char :=
  replaceAllFuel s.length s pat rep

/-- One entry of `config.variables` in `handleServerStart`. -/
structure EggVariable where
  envVariable : List Char
  value : List Char

/-- The `config.allocation` record used by `handleServerStart`. -/
structure Allocation where
  ip : List Char
  port : Nat

/-- Stage 1 of `handleServerStart`: substitute the system memory variable. -/
def applySystemMemory (startup : List Char) (memory : Nat) : List Char :=
  replaceAll startup (placeholder "SERVER_MEMORY".data) (Nat.repr memory).data

/-- Stage 2: substitute each caller-supplied variable, in list order. -/
def applyEggVariables (startup : List Char) (vars : List EggVariable) : List Char :=
  vars.foldl (fun acc v => replaceAll acc (placeholder v.envVariable) v.value) startup

/-- Stage 3: substitute the allocation address and port, when present. -/
def applyAllocation (startup : List Char) (allocation : Option Allocation) : List Char :=
  match allocation with
  | some a =>
    replaceAll (replaceAll startup (placeholder "SERVER_IP".data) a.ip)
      (placeholder "SERVER_PORT".data) (Nat.repr a.port).data
  | none => startup

/-- Stage 4: the two fixed fallback defaults for the jar file name and
the version, applied last. -/
def applyFallbackDefaults (startup : List Char) : List Char :=
  replaceAll (replaceAll startup (placeholder "SERVER_JARFILE".data) "server.jar".data)
    (placeholder "MC_VERSION".data) "latest".data

/-- The command-template resolution of `Daemon.handleServerStart`,
transliterated statement by statement: memory first, then the
caller-supplied variables, then the allocation, then the fallbacks. -/
def resolveStartup (startup : List Char) (memory : Nat) (vars : List EggVariable)
    (allocation : Option Allocation) : List Char :=
  let s1 := replaceAll startup (placeholder "SERVER_MEMORY".data) (Nat.repr memory).data
  let s2 := vars.foldl (fun acc v => replaceAll acc (placeholder v.envVariable) v.value) s1
  let s3 :=
    match allocation with
    | some a =>
      replaceAll (replaceAll s2 (placeholder "SERVER_IP".data) a.ip)
        (placeholder "SERVER_PORT".data) (Nat.repr a.port).data
    | none => s2
  let s4 := replaceAll s3 (placeholder "SERVER_JARFILE".data) "server.jar".data
  replaceAll s4 (placeholder "MC_VERSION".data) "latest".data

/-- Claim C5: resolution applies the four substitution stages in exactly
the order memory, caller variables, allocation, fallback defaults; on the
specification's example template with memory 1024 and no jar variable the
result is the fallback-resolved command line, and a caller-supplied jar
variable is substituted before the default can apply. -/
theorem startup_resolution (startup : List Char) (memory : Nat)
    (vars : List EggVariable) (allocation : Option Allocation) :
    resolveStartup startup memory vars allocation =
      applyFallbackDefaults (applyAllocation
        (applyEggVariables (applySystemMemory startup memory) vars) allocation) ∧
    resolveStartup
        ("java -Xmx".data ++ placeholder "SERVER_MEMORY".data ++ "M -jar ".data ++
          placeholder "SERVER_JARFILE".data) 1024 [] none =
      "java -Xmx1024M -jar server.jar".data ∧
    resolveStartup ("-jar ".data ++ placeholder "SERVER_JARFILE".data) 512
        [⟨"SERVER_JARFILE".data, "custom.jar".data⟩] none =
      "-jar custom.jar".data := by
  refine ⟨?_, by decide, by decide⟩
  cases allocation <;> rfl

/-- Double-quote character. -/
def dquote : Char := '"'

/-- Single-quote character, written numerically. -/
def squote : Char := Char.ofNat 39

/-- The loop state of `ProcessManager.parseCommand`: collected parts, the
token under construction, and the quoting mode (`quoteChar` is `none`
when outside quotes, mirroring the empty-string sentinel of the source). -/
structure ParseState where
  parts : List (List Char)
  current : List Char
  inQuotes : Bool
  quoteChar : Option Char

/-- One iteration of the character loop of `parseCommand`. -/
def parseStep (st : ParseState) (c : Char) : ParseState :=
  if (c = dquote ∨ c = squote) ∧ st.inQuotes = false then
    { st with inQuotes := true, quoteChar := some c }
  else if st.quoteChar = some c ∧ st.inQuotes = true then
    { st with inQuotes := false, quoteChar := none }
  else if c = ' ' ∧ st.inQuotes = false then
    if st.current ≠ [] then { st with parts := st.parts ++ [st.current], current := [] }
    else st
  else
    { st with current := st.current ++ [c] }

/-- `ProcessManager.parseCommand`: fold the loop over the command and
flush the trailing token if non-empty. -/
def parseCommand (command : List Char) : List (List Char) :=
  let st := command.foldl parseStep ⟨[], [], false, none⟩
  st.parts ++ (if st.current ≠ [] then [st.current] else [])

theorem parse_in_quotes (q : Char) : ∀ (s : List Char), q ∉ s →
    ∀ parts cur, List.foldl parseStep ⟨parts, cur, true, some q⟩ s =
      ⟨parts, cur ++ s, true, some q⟩ := by
  intro s
  induction s with
  | nil =>
    intro _ parts cur
    simp
  | cons c rest ih =>
    intro hq parts cur
    have hcq : ¬ ((some q : Option Char) = some c) := by
      intro h
      apply hq
      have hqc : q = c := by injection h
      rw [hqc]
      exact List.mem_cons_self c rest
    rw [List.foldl_cons]
    have hstep : parseStep ⟨parts, cur, true, some q⟩ c = ⟨parts, cur ++ [c], true, some q⟩ := by
      simp [parseStep, hcq]
    rw [hstep, ih (fun h => hq (List.mem_cons_of_mem c h)) parts (cur ++ [c])]
    simp

/-- Claim C6: the tokenizer turns the specification's example into the
expected four tokens; an unterminated double quote absorbs the remainder
of the input (whitespace included) into a single token without error; and
a quoted span is one token regardless of internal whitespace. -/
theorem parse_command_tokens :
    parseCommand ("start ".data ++ [dquote] ++ "My Server".data ++ [dquote] ++
        " --flag ".data ++ [squote] ++ "a b".data ++ [squote]) =
      ["start".data, "My Server".data, "--flag".data, "a b".data] ∧
    (∀ s : List Char, dquote ∉ s → s ≠ [] → parseCommand (dquote :: s) = [s]) ∧
    (∀ s : List Char, dquote ∉ s → s ≠ [] →
      parseCommand (dquote :: s ++ [dquote]) = [s]) := by
  have hopen : parseStep ⟨[], [], false, none⟩ dquote = ⟨[], [], true, some dquote⟩ := by
    simp [parseStep]
  refine ⟨by decide, ?_, ?_⟩
  · intro s h1 h3
    simp only [parseCommand, List.foldl_cons, hopen, parse_in_quotes dquote s h1]
    simp [h3]
  · intro s h1 h3
    have hclose : parseStep ⟨[], [] ++ s, true, some dquote⟩ dquote = ⟨[], s, false, none⟩ := by
      simp [parseStep]
    have hinner : List.foldl parseStep ⟨[], [], false, none⟩ (dquote :: s) =
        ⟨[], [] ++ s, true, some dquote⟩ := by
      rw [List.foldl_cons, hopen, parse_in_quotes dquote s h1 [] []]
    have hfold : List.foldl parseStep ⟨[], [], false, none⟩ (dquote :: s ++ [dquote]) =
        ⟨[], s, false, none⟩ := by
      rw [List.foldl_append, hinner, List.foldl_cons, hclose, List.foldl_nil]
    simp only [parseCommand, hfold]
    simp [h3]

/-- Witness for `parse_command_tokens`: an unterminated quote around a
string with an inner space yields that string as one token. -/
theorem parse_command_tokens_witness :
    dquote ∉ "a b".data ∧ "a b".data ≠ [] ∧
    parseCommand (dquote :: "a b".data) = ["a b".data] :=
  ⟨by decide, by decide, parse_command_tokens.2.1 "a b".data (by decide) (by decide)⟩

/-- The whitespace class of JavaScript `String.prototype.trim`, restricted
to the characters that occur in process output. -/
def isJsSpace (c : Char) : Bool :=
  c = ' ' || c = '\t' || c = '\n' || c = '\r'

/-- `l.trim()` is falsy exactly when the line is all whitespace. -/
def wsOnly (l : List Char) : Bool :=
  l.all isJsSpace

/-- `String.prototype.split` on a single delimiter character. -/
def splitOnChar (d : Char) : List Char → List (List Char)
  | [] => [[]]
  | c :: rest =>
    if c = d then [] :: splitOnChar d rest
    else
      match splitOnChar d rest with
      | [] => [[c]]
      | seg :: segs => (c :: seg) :: segs

/-- The stdout `data` handler of `startServer`: split one chunk on
newlines and keep the lines whose trim is non-empty, in order. -/
def stdoutChunkLines (chunk : List Char) : List (List Char) :=
  (splitOnChar '\n' chunk).filter (fun l => !wsOnly l)

/-- The stderr `data` handler: same split and filter, each surviving line
prefixed with the error tag. -/
def stderrChunkLines (chunk : List Char) : List (List Char) :=
  ((splitOnChar '\n' chunk).filter (fun l => !wsOnly l)).map
    (fun l => "[ERROR] ".data ++ l)

/-- Events emitted for a whole sequence of stdout chunks, in order. -/
def stdoutRelay (chunks : List (List Char)) : List (List Char) :=
  (chunks.map stdoutChunkLines).flatten

/-- Events emitted for a whole sequence of stderr chunks, in order. -/
def stderrRelay (chunks : List (List Char)) : List (List Char) :=
  (chunks.map stderrChunkLines).flatten

/-- Claim C7, amended: the relay never emits a whitespace-only line;
stderr events are exactly the stdout-style events with the error tag
prefixed; within one chunk the emitted lines preserve the split order
(a sublist of the raw split); but chunks are split independently, so a
line spanning a chunk boundary is emitted as two separate events. -/
theorem output_relay_behaviour :
    (∀ chunks l, l ∈ stdoutRelay chunks → wsOnly l = false) ∧
    (∀ chunks, stderrRelay chunks =
      (stdoutRelay chunks).map (fun l => "[ERROR] ".data ++ l)) ∧
    (∀ chunk, List.Sublist (stdoutChunkLines chunk) (splitOnChar '\n' chunk)) ∧
    stdoutRelay ["hel".data, "lo\n".data] = ["hel".data, "lo".data] := by
  refine ⟨?_, ?_, ?_, by decide⟩
  · intro chunks l hl
    simp only [stdoutRelay, List.mem_flatten, List.mem_map] at hl
    obtain ⟨_, ⟨c, _, rfl⟩, hmem⟩ := hl
    have hp := List.of_mem_filter hmem
    simpa using hp
  · intro chunks
    induction chunks with
    | nil => rfl
    | cons c rest ih =>
      have l1 : stderrRelay (c :: rest) = stderrChunkLines c ++ stderrRelay rest := rfl
      have l2 : stdoutRelay (c :: rest) = stdoutChunkLines c ++ stdoutRelay rest := rfl
      rw [l1, l2, List.map_append, ih]
      rfl
  · intro chunk
    exact List.filter_sublist _

/-- Witness for `output_relay_behaviour`: the surviving line of a chunk
that also carries a whitespace-only segment is not whitespace-only. -/
theorem output_relay_behaviour_witness :
    ("x".data ∈ stdoutRelay ["x\n \n".data]) ∧ wsOnly "x".data = false :=
  ⟨by decide, output_relay_behaviour.1 ["x\n \n".data] "x".data (by decide)⟩

/-- Counterexample to claim C7 as stated: the single logical line `hello`
of the stream, delivered as the two chunks `hel` and `lo`, is emitted as
two events instead of one — a line spanning a chunk boundary is not
forwarded as a discrete event. -/
theorem output_relay_counterexample :
    stdoutRelay ["hel".data, "lo\n".data] ≠ ["hello".data] ∧
    stdoutChunkLines ("hel".data ++ "lo\n".data) = ["hello".data] := by
  decide

/-- A registry snapshot row as seen by `getAllServerStats`: the server id,
the entry status, and `process.pid` (absent when the spawn itself failed). -/
structure SamplerEntry where
  serverId : String
  status : Status
  pid : Option Nat

/-- The reading `pidusage` reports for one process: CPU load in hundredths
of a percent (the source's two-decimal rounding is the identity at this
granularity) and resident memory in bytes. -/
structure Usage where
  cpu : Nat
  memoryBytes : Nat

/-- `Math.round` of the exact ratio `a / b` for positive integers. -/
def roundDiv (a b : Nat) : Nat :=
  (a + b / 2) / b

/-- The byte-to-megabyte conversion `Math.round(usage.memory / 1024 / 1024)`. -/
def bytesToMB (bytes : Nat) : Nat :=
  roundDiv bytes (1024 * 1024)

/-- JavaScript truthiness of `process.pid`. -/
def pidTruthy : Option Nat → Bool
  | some p => p != 0
  | none => false

/-- One `pidusage` query inside the loop: the `try` branch on success,
the zero-valued reading of the `catch` branch on failure. -/
def sampleOne (query : Nat → Option Usage) (p : Nat) : Nat × Nat :=
  match query p with
  | some u => (u.cpu, bytesToMB u.memoryBytes)
  | none => (0, 0)

/-- `ProcessManager.getAllServerStats`: iterate the registry snapshot,
query only truthy-pid `RUNNING` entries, and degrade a failed query to a
zero reading without aborting the loop. -/
def getAllServerStats (entries : List SamplerEntry) (query : Nat → Option Usage) :
    List (String × Nat × Nat) :=
  entries.foldl (fun stats e =>
    match e.pid with
    | some p =>
      if p ≠ 0 ∧ e.status = Status.RUNNING then stats ++ [(e.serverId, sampleOne query p)]
      else stats
    | none => stats) []

theorem stats_go (query : Nat → Option Usage) :
    ∀ (entries : List SamplerEntry) (acc : List (String × Nat × Nat)),
    (∀ e ∈ entries, pidTruthy e.pid = true) →
    List.foldl (fun stats e =>
      match e.pid with
      | some p =>
        if p ≠ 0 ∧ e.status = Status.RUNNING then stats ++ [(e.serverId, sampleOne query p)]
        else stats
      | none => stats) acc entries =
    acc ++ (entries.filter (fun e => e.status = Status.RUNNING)).map
      (fun e => (e.serverId, sampleOne query (e.pid.getD 0))) := by
  intro entries
  induction entries with
  | nil =>
    intro acc _
    simp
  | cons e rest ih =>
    intro acc h
    have he := h e (List.mem_cons_self e rest)
    have hrest : ∀ x ∈ rest, pidTruthy x.pid = true :=
      fun x hx => h x (List.mem_cons_of_mem e hx)
    cases hp : e.pid with
    | none =>
      rw [hp] at he
      exact absurd he (by simp [pidTruthy])
    | some p =>
      rw [hp] at he
      have hp0 : p ≠ 0 := by simpa [pidTruthy] using he
      rw [List.foldl_cons]
      by_cases hrun : e.status = Status.RUNNING
      · simp only [hp, if_pos (And.intro hp0 hrun)]
        rw [ih _ hrest]
        simp [List.filter_cons, hrun, hp]
      · have hcond : ¬ (p ≠ 0 ∧ e.status = Status.RUNNING) := fun hc => hrun hc.2
        simp only [hp, if_neg hcond]
        rw [ih _ hrest]
        simp [List.filter_cons, hrun]

/-- Claim C9: on a sampling pass over a registry snapshot whose entries
all carry a pid, the result rows are exactly the `RUNNING` entries in
order, each carrying its query result, and an entry whose query fails
contributes the degraded `(0, 0)` reading without affecting the others. -/
theorem stats_sampling (entries : List SamplerEntry) (query : Nat → Option Usage)
    (h : ∀ e ∈ entries, pidTruthy e.pid = true) :
    getAllServerStats entries query =
      (entries.filter (fun e => e.status = Status.RUNNING)).map
        (fun e => (e.serverId, sampleOne query (e.pid.getD 0))) ∧
    (∀ p, query p = none → sampleOne query p = (0, 0)) := by
  constructor
  · rw [getAllServerStats, stats_go query entries [] h]
    simp
  · intro p hp
    simp [sampleOne, hp]

/-- Witness for `stats_sampling`: two running servers and one starting
server; the query fails for the first running one, which degrades to a
zero reading while the second still reports its usage. -/
theorem stats_sampling_witness :
    (∀ e ∈ [SamplerEntry.mk "a" Status.RUNNING (some 5),
            SamplerEntry.mk "b" Status.RUNNING (some 6),
            SamplerEntry.mk "c" Status.STARTING (some 7)], pidTruthy e.pid = true) ∧
    getAllServerStats
        [SamplerEntry.mk "a" Status.RUNNING (some 5),
         SamplerEntry.mk "b" Status.RUNNING (some 6),
         SamplerEntry.mk "c" Status.STARTING (some 7)]
        (fun p => if p = 6 then some ⟨250, 3145728⟩ else none) =
      [("a", 0, 0), ("b", 250, 3)] := by
  refine ⟨by decide, ?_⟩
  rw [(stats_sampling _ _ (by decide)).1]
  decide

/-- Well-formed segment lists: the canonical form of an absolute POSIX
path — every segment non-empty and slash-free. -/
def wfSegs (segs : List (List Char)) : Prop :=
  ∀ seg ∈ segs, seg ≠ [] ∧ '/' ∉ seg

instance (segs : List (List Char)) : Decidable (wfSegs segs) := by
  unfold wfSegs
  infer_instance

/-- The dot-segment normalisation performed by `path.resolve` and
`path.normalize` on an absolute path, processed segment by segment with
an accumulator: empty and `.` segments vanish, `..` pops (a no-op at the
root), anything else is appended. -/
def normAux : List (List Char) → List (List Char) → List (List Char)
  | acc, [] => acc
  | acc, seg :: rest =>
    if seg = [] ∨ seg = ['.'] then normAux acc rest
    else if seg = ['.', '.'] then normAux acc.dropLast rest
    else normAux (acc ++ [seg]) rest

/-- `path.resolve(base, p)` for an absolute `base` given in segment form:
an absolute `p` ignores the base, otherwise the segments are joined and
the whole path normalised. -/
def resolveSegs (base : List (List Char)) (p : List Char) : List (List Char) :=
  if p.head? = some '/' then normAux [] (splitOnChar '/' p)
  else normAux [] (base ++ splitOnChar '/' p)

/-- Segment-list rendering of the non-root part of an absolute path:
a leading slash before each segment. -/
def joinSegs : List (List Char) → List Char
  | [] => []
  | seg :: rest => '/' :: (seg ++ joinSegs rest)

/-- String rendering of an absolute path given by its segments. -/
def render (segs : List (List Char)) : List Char :=
  if segs = [] then ['/'] else joinSegs segs

/-- `FileManager.resolvePath`: compute the server directory
`path.resolve(baseDirectory, serverId)`, normalise the request (empty or
root becomes `.`, leading slashes are stripped), resolve it against the
server directory and admit the result only when, as a string, it equals
the server directory or extends it past a path separator; otherwise the
source throws its access-denied error, modelled as `none`. -/
def resolvePath (base : List (List Char)) (serverId filePath : List Char) :
    Option (List Char) :=
  let serverDir := resolveSegs base serverId
  let normalizedPath :=
    if filePath = [] ∨ filePath = ['/'] then ['.']
    else filePath.dropWhile (fun c => c = '/')
  let resolved := resolveSegs serverDir normalizedPath
  let rr := render resolved
  let rs := render serverDir
  if rr = rs ∨ (rs ++ ['/']).isPrefixOf rr then some rr else none

/-- `ProcessManager.getServerPath`: the bare
`path.join(this.dataDirectory, serverId)` used by the server-root
creation and deletion operations — join then normalise, with no
containment check of any kind. -/
def getServerPath (base : List (List Char)) (serverId : List Char) : List (List Char) :=
  normAux [] (base ++ splitOnChar '/' serverId)

theorem splitOnChar_no_delim (d : Char) :
    ∀ s : List Char, ∀ seg ∈ splitOnChar d s, d ∉ seg := by
  intro s
  induction s with
  | nil =>
    intro seg hseg
    simp only [splitOnChar, List.mem_singleton] at hseg
    subst hseg
    simp
  | cons c rest ih =>
    intro seg hseg
    simp only [splitOnChar] at hseg
    by_cases hc : c = d
    · rw [if_pos hc] at hseg
      rcases List.mem_cons.mp hseg with h | h
      · subst h
        simp
      · exact ih seg h
    · rw [if_neg hc] at hseg
      cases hsp : splitOnChar d rest with
      | nil =>
        rw [hsp] at hseg
        simp only [List.mem_singleton] at hseg
        subst hseg
        intro hmem
        rw [List.mem_singleton] at hmem
        exact hc hmem.symm
      | cons s0 ss =>
        rw [hsp] at hseg
        rcases List.mem_cons.mp hseg with h | h
        · subst h
          intro hmem
          rcases List.mem_cons.mp hmem with h' | h'
          · exact hc h'.symm
          · exact ih s0 (by rw [hsp]; exact List.mem_cons_self s0 ss) h'
        · exact ih seg (by rw [hsp]; exact List.mem_cons_of_mem s0 h)

theorem normAux_wf :
    ∀ (rest acc : List (List Char)), wfSegs acc → (∀ seg ∈ rest, '/' ∉ seg) →
      wfSegs (normAux acc rest) := by
  intro rest
  induction rest with
  | nil =>
    intro acc hacc _
    simpa [normAux] using hacc
  | cons seg rest ih =>
    intro acc hacc hrest
    have hrest' : ∀ s ∈ rest, '/' ∉ s := fun s hs => hrest s (List.mem_cons_of_mem seg hs)
    simp only [normAux]
    by_cases h1 : seg = [] ∨ seg = ['.']
    · rw [if_pos h1]
      exact ih acc hacc hrest'
    · rw [if_neg h1]
      by_cases h2 : seg = ['.', '.']
      · rw [if_pos h2]
        refine ih acc.dropLast ?_ hrest'
        intro s hs
        exact hacc s ((List.dropLast_sublist acc).subset hs)
      · rw [if_neg h2]
        refine ih (acc ++ [seg]) ?_ hrest'
        intro s hs
        rcases List.mem_append.mp hs with h | h
        · exact hacc s h
        · rw [List.mem_singleton] at h
          subst h
          exact ⟨fun hnil => h1 (Or.inl hnil), hrest s (List.mem_cons_self s rest)⟩

theorem resolveSegs_wf (base : List (List Char)) (p : List Char) (hb : wfSegs base) :
    wfSegs (resolveSegs base p) := by
  have hnil : wfSegs [] := by
    intro s hs
    exact absurd hs (List.not_mem_nil s)
  rw [resolveSegs]
  by_cases h : p.head? = some '/'
  · rw [if_pos h]
    exact normAux_wf _ [] hnil (splitOnChar_no_delim '/' p)
  · rw [if_neg h]
    refine normAux_wf _ [] hnil ?_
    intro seg hseg
    rcases List.mem_append.mp hseg with h1 | h2
    · exact (hb seg h1).2
    · exact splitOnChar_no_delim '/' p seg h2

/-- A tail is either empty or starts with the separator: the shape of
`joinSegs` output. -/
def slashHeaded (t : List Char) : Prop :=
  t = [] ∨ t.head? = some '/'

theorem token_split_eq :
    ∀ (s1 s2 t1 t2 : List Char), '/' ∉ s1 → '/' ∉ s2 →
      slashHeaded t1 → slashHeaded t2 → s1 ++ t1 = s2 ++ t2 → s1 = s2 ∧ t1 = t2 := by
  intro s1
  induction s1 with
  | nil =>
    intro s2 t1 t2 _ hs2 ht1 _ heq
    cases s2 with
    | nil => exact ⟨rfl, by simpa using heq⟩
    | cons c2 s2' =>
      rw [List.nil_append] at heq
      rcases ht1 with h | h
      · rw [h] at heq
        exact absurd heq.symm (by simp)
      · rw [heq] at h
        simp only [List.cons_append, List.head?_cons, Option.some.injEq] at h
        have hmem : '/' ∈ c2 :: s2' := by
          rw [← h]
          exact List.mem_cons_self _ _
        exact absurd hmem hs2
  | cons c1 s1' ih =>
    intro s2 t1 t2 hs1 hs2 ht1 ht2 heq
    cases s2 with
    | nil =>
      rw [List.nil_append] at heq
      rcases ht2 with h | h
      · rw [h] at heq
        exact absurd heq (by simp)
      · rw [← heq] at h
        simp only [List.cons_append, List.head?_cons, Option.some.injEq] at h
        have hmem : '/' ∈ c1 :: s1' := by
          rw [← h]
          exact List.mem_cons_self _ _
        exact absurd hmem hs1
    | cons c2 s2' =>
      rw [List.cons_append, List.cons_append] at heq
      injection heq with hc heq2
      have hih := ih s2' t1 t2 (fun h => hs1 (List.mem_cons_of_mem _ h))
        (fun h => hs2 (List.mem_cons_of_mem _ h)) ht1 ht2 heq2
      exact ⟨by rw [hc, hih.1], hih.2⟩

theorem token_split_pre :
    ∀ (s1 s2 t1 t2 : List Char), '/' ∉ s1 → '/' ∉ s2 →
      t1.head? = some '/' → slashHeaded t2 → (s1 ++ t1) <+: (s2 ++ t2) →
      s1 = s2 ∧ t1 <+: t2 := by
  intro s1
  induction s1 with
  | nil =>
    intro s2 t1 t2 _ hs2 ht1 _ hpre
    cases s2 with
    | nil => exact ⟨rfl, by simpa using hpre⟩
    | cons c2 s2' =>
      cases t1 with
      | nil => simp at ht1
      | cons a t1' =>
        have ha : a = '/' := by simpa using ht1
        rw [List.nil_append, List.cons_append, List.cons_prefix_cons] at hpre
        have hmem : '/' ∈ c2 :: s2' := by
          rw [← hpre.1, ha]
          exact List.mem_cons_self _ _
        exact absurd hmem hs2
  | cons c1 s1' ih =>
    intro s2 t1 t2 hs1 hs2 ht1 ht2 hpre
    cases s2 with
    | nil =>
      rw [List.nil_append] at hpre
      rcases ht2 with h | h
      · rw [h] at hpre
        have := List.prefix_nil.mp hpre
        exact absurd this (by simp)
      · cases t2 with
        | nil => simp at h
        | cons b t2' =>
          have hb : b = '/' := by simpa using h
          rw [List.cons_append, List.cons_prefix_cons] at hpre
          have hmem : '/' ∈ c1 :: s1' := by
            rw [hpre.1, hb]
            exact List.mem_cons_self _ _
          exact absurd hmem hs1
    | cons c2 s2' =>
      rw [List.cons_append, List.cons_append, List.cons_prefix_cons] at hpre
      obtain ⟨hc, hpre2⟩ := hpre
      have hih := ih s2' t1 t2 (fun h => hs1 (List.mem_cons_of_mem _ h))
        (fun h => hs2 (List.mem_cons_of_mem _ h)) ht1 ht2 hpre2
      exact ⟨by rw [hc, hih.1], hih.2⟩

theorem isPrefixOf_to_pre : ∀ (l1 l2 : List Char), l1.isPrefixOf l2 = true → l1 <+: l2 := by
  intro l1
  induction l1 with
  | nil =>
    intro l2 _
    exact List.nil_prefix
  | cons a l ih =>
    intro l2 h
    cases l2 with
    | nil => simp [List.isPrefixOf] at h
    | cons b m =>
      simp only [List.isPrefixOf, Bool.and_eq_true] at h
      obtain ⟨hab, hlm⟩ := h
      have hab' : a = b := by simpa using hab
      rw [hab']
      exact List.cons_prefix_cons.mpr ⟨rfl, ih m hlm⟩

theorem joinSegs_slashHeaded (r : List (List Char)) : slashHeaded (joinSegs r) := by
  cases r with
  | nil => exact Or.inl rfl
  | cons s rest => exact Or.inr rfl

theorem joinSegs_append_slash_head (r : List (List Char)) :
    (joinSegs r ++ ['/']).head? = some '/' := by
  cases r with
  | nil => rfl
  | cons s rest => rfl

theorem joinSegs_inj : ∀ (a b : List (List Char)), wfSegs a → wfSegs b →
    joinSegs a = joinSegs b → a = b := by
  intro a
  induction a with
  | nil =>
    intro b _ _ heq
    cases b with
    | nil => rfl
    | cons s2 r2 => exact absurd heq (by simp [joinSegs])
  | cons s r ih =>
    intro b hwa hwb heq
    cases b with
    | nil => exact absurd heq (by simp [joinSegs])
    | cons s2 r2 =>
      simp only [joinSegs] at heq
      injection heq with _ heq2
      obtain ⟨hs, ht⟩ := token_split_eq s s2 (joinSegs r) (joinSegs r2)
        (hwa s (List.mem_cons_self s r)).2 (hwb s2 (List.mem_cons_self s2 r2)).2
        (joinSegs_slashHeaded r) (joinSegs_slashHeaded r2) heq2
      rw [hs, ih r2 (fun x hx => hwa x (List.mem_cons_of_mem s hx))
        (fun x hx => hwb x (List.mem_cons_of_mem s2 hx)) ht]

theorem render_inj (a b : List (List Char)) (hwa : wfSegs a) (hwb : wfSegs b)
    (h : render a = render b) : a = b := by
  cases a with
  | nil =>
    cases b with
    | nil => rfl
    | cons s2 r2 =>
      simp only [render, if_pos rfl, if_neg (by simp : ¬(s2 :: r2 = []))] at h
      simp only [joinSegs] at h
      injection h with _ h2
      have := (hwb s2 (List.mem_cons_self s2 r2)).1
      exact absurd (List.append_eq_nil.mp h2.symm).1 this
  | cons s r =>
    cases b with
    | nil =>
      simp only [render, if_pos rfl, if_neg (by simp : ¬(s :: r = []))] at h
      simp only [joinSegs] at h
      injection h with _ h2
      have := (hwa s (List.mem_cons_self s r)).1
      exact absurd (List.append_eq_nil.mp h2).1 this
    | cons s2 r2 =>
      simp only [render, if_neg (by simp : ¬(s :: r = [])),
        if_neg (by simp : ¬(s2 :: r2 = []))] at h
      exact joinSegs_inj _ _ hwa hwb h

theorem joinSegs_pre : ∀ (r r2 : List (List Char)), wfSegs r → wfSegs r2 →
    (joinSegs r ++ ['/']) <+: joinSegs r2 → r <+: r2 := by
  intro r
  induction r with
  | nil =>
    intro r2 _ _ _
    exact List.nil_prefix
  | cons s rest ih =>
    intro r2 hw1 hw2 hpre
    cases r2 with
    | nil =>
      have := List.prefix_nil.mp hpre
      exact absurd this (by simp [joinSegs])
    | cons s2 rest2 =>
      have hpre' : ('/' :: (s ++ (joinSegs rest ++ ['/']))) <+:
          ('/' :: (s2 ++ joinSegs rest2)) := by
        simpa [joinSegs, List.append_assoc] using hpre
      rw [List.cons_prefix_cons] at hpre'
      obtain ⟨-, hpre2⟩ := hpre'
      obtain ⟨hs, hpre3⟩ := token_split_pre s s2 (joinSegs rest ++ ['/']) (joinSegs rest2)
        (hw1 s (List.mem_cons_self s rest)).2 (hw2 s2 (List.mem_cons_self s2 rest2)).2
        (joinSegs_append_slash_head rest) (joinSegs_slashHeaded rest2) hpre2
      have hrest := ih rest2 (fun x hx => hw1 x (List.mem_cons_of_mem s hx))
        (fun x hx => hw2 x (List.mem_cons_of_mem s2 hx)) hpre3
      rw [hs]
      exact List.cons_prefix_cons.mpr ⟨rfl, hrest⟩

theorem render_pre (a b : List (List Char)) (hwa : wfSegs a) (hwb : wfSegs b)
    (h : (render a ++ ['/']) <+: render b) : a <+: b := by
  cases a with
  | nil => exact List.nil_prefix
  | cons s r =>
    cases b with
    | nil =>
      have hlen := h.length_le
      simp [render, joinSegs] at hlen
    | cons s2 r2 =>
      simp only [render, if_neg (by simp : ¬(s :: r = [])),
        if_neg (by simp : ¬(s2 :: r2 = []))] at h
      exact joinSegs_pre _ _ hwa hwb h

/-- Claim C8, amended (resolution part): whenever `resolvePath` succeeds,
the returned string renders a well-formed absolute path whose segments
extend the server directory's segments — the result is the server's root
or strictly inside it, never outside.  (The root creation and deletion
operations of the supervisor do not go through this resolution: see the
counterexample.) -/
theorem resolvePath_containment (base : List (List Char)) (serverId filePath r : List Char)
    (hbase : wfSegs base) (h : resolvePath base serverId filePath = some r) :
    ∃ resolved : List (List Char), r = render resolved ∧ wfSegs resolved ∧
      resolveSegs base serverId <+: resolved := by
  simp only [resolvePath] at h
  have hwsd : wfSegs (resolveSegs base serverId) := resolveSegs_wf base serverId hbase
  by_cases hc : render (resolveSegs (resolveSegs base serverId)
      (if filePath = [] ∨ filePath = ['/'] then ['.']
       else filePath.dropWhile (fun c => c = '/'))) = render (resolveSegs base serverId) ∨
      (render (resolveSegs base serverId) ++ ['/']).isPrefixOf
        (render (resolveSegs (resolveSegs base serverId)
          (if filePath = [] ∨ filePath = ['/'] then ['.']
           else filePath.dropWhile (fun c => c = '/'))))
  · rw [if_pos hc] at h
    have hwres : wfSegs (resolveSegs (resolveSegs base serverId)
        (if filePath = [] ∨ filePath = ['/'] then ['.']
         else filePath.dropWhile (fun c => c = '/'))) :=
      resolveSegs_wf _ _ hwsd
    have hr : r = render (resolveSegs (resolveSegs base serverId)
        (if filePath = [] ∨ filePath = ['/'] then ['.']
         else filePath.dropWhile (fun c => c = '/'))) := by
      injection h with h0
      exact h0.symm
    refine ⟨_, hr, hwres, ?_⟩
    rcases hc with hceq | hcpre
    · rw [render_inj _ _ hwres hwsd hceq]
    · exact render_pre _ _ hwsd hwres (isPrefixOf_to_pre _ _ hcpre)
  · rw [if_neg hc] at h
    exact absurd h (by simp)

/-- Witness for `resolvePath_containment`: a request containing a
resolved-away `..` stays inside the server root, and a request that would
climb out of the root is rejected. -/
theorem resolvePath_containment_witness :
    wfSegs [['d']] ∧
    resolvePath [['d']] "srv1".data "a/../b".data = some "/d/srv1/b".data ∧
    (∃ resolved : List (List Char), "/d/srv1/b".data = render resolved ∧ wfSegs resolved ∧
      resolveSegs [['d']] "srv1".data <+: resolved) ∧
    resolvePath [['d']] "srv1".data "../x".data = none := by
  refine ⟨by decide, by decide, ?_, by decide⟩
  exact resolvePath_containment [['d']] "srv1".data "a/../b".data "/d/srv1/b".data
    (by decide) (by decide)

/-- Counterexample to claim C8 as stated: the server-root path used by
directory creation and deletion is a bare join of the data directory and
the server id, so the server id `..` yields the parent of the data
directory — outside it — with no access-denied failure. -/
theorem server_root_escape :
    getServerPath [['s'], ['d']] "..".data = [['s']] ∧
    ¬ ([['s'], ['d']] <+: getServerPath [['s'], ['d']] "..".data) := by
  decide

end Hyprdash
